import Mathlib

/-!
Verification of the `nque` persistent FIFO queue (`nque/fifo.py`, class
`FifoQueueLmdb`) against its natural-language specification.

The LMDB database backing one queue is shallowly embedded as a `Store`:
the two reserved keys `b'start'` / `b'end'` are kept as separate optional
fields (their values are decimal strings of natural numbers, written by
`_put_first_item_number` / `_put_last_item_number` and parsed back by
`int(...)`, so they are modelled as `Option Nat` directly), and the item
entries are an association list from the numeric item position to the stored
bytes.  The source accesses item entries only through
`_make_db_key(key) = str(key).zfill(3).encode()`, which is an injective
encoding of the position and never collides with `b'start'`/`b'end'`, so item
keys are modelled by the position itself.

Each queue method is embedded as a pure function of the `Store`.  The
`storeFails` flag models LMDB raising `lmdb.Error` somewhere inside the
operation's write transaction: the transaction is then aborted (no mutation
survives) and control reaches the method's `except lmdb.Error` clause.
-/

namespace Nque

/-- A Python `bytes` value, modelled as its list of byte values. -/
abbrev Item := List Nat

/-- Source constant `FifoQueueLmdb.ITEM_MAX`: assumed maximum size of a queue
item in bytes, `20 * 1024`. -/
def ITEM_MAX : Nat := 20 * 1024

/-- Source constant `FifoQueueLmdb.ITEMS_MAX`: maximum number of allowed items
in a queue, `1_000`.  It is also the size of the circular position space,
because `_get_next_item_number` wraps at `ITEMS_MAX - 1` (the spec calls this
CAPACITY). -/
def ITEMS_MAX : Nat := 1000

/-- Modelled from the spec: module `nque/exc.py` (imported by `nque/fifo.py`
but not itself part of the sources) declares the exception classes
`ArgumentError` (malformed caller input), `TryLater` (the spec's
`CapacityExceeded` retry-signal) and `QueueError` (the spec's
`StorageFailure`),three mutually distinct conditions. -/
inductive QErr
  | argumentError
  | tryLater
  | queueError
  deriving DecidableEq

/-- Result of a Python call: a returned value or a raised exception. -/
inductive PyResult (A : Type) where
  | ok (val : A)
  | raised (e : QErr)
  deriving DecidableEq

/-- State of the LMDB database backing one queue: the values of the reserved
keys `b'start'` and `b'end'` (absent on a fresh queue) and the item entries,
keyed by numeric position. -/
structure Store where
  startv : Option Nat
  endv : Option Nat
  slots : List (Nat × Item)
  deriving DecidableEq

/-- Lookup `txn.get(key)` on the item portion of the store. -/
def lookupSlot : List (Nat × Item) → Nat → Option Item
  | [], _ => none
  | p :: ps, k => if p.1 = k then some p.2 else lookupSlot ps k

/-- Delete `txn.delete(key)` on the item portion of the store (LMDB keys are
unique; erasing every pair with the key keeps the model total). -/
def eraseSlot : List (Nat × Item) → Nat → List (Nat × Item)
  | [], _ => []
  | p :: ps, k => if p.1 = k then eraseSlot ps k else p :: eraseSlot ps k

/-- Value stored under item position `k`, or `none` when absent. -/
def Store.getSlot (s : Store) (k : Nat) : Option Item :=
  lookupSlot s.slots k

/-- Store item `v` under position `k` (LMDB `txn.put` overwrites). -/
def Store.putSlot (s : Store) (k : Nat) (v : Item) : Store :=
  { s with slots := (k, v) :: eraseSlot s.slots k }

/-- Delete the item entry at position `k`. -/
def Store.delSlot (s : Store) (k : Nat) : Store :=
  { s with slots := eraseSlot s.slots k }

/-- Number of the reserved keys `b'start'`, `b'end'` present (the
`special_keys_count` computed inside `_permit_put`). -/
def Store.specialKeysCount (s : Store) : Nat :=
  (if s.startv.isSome then 1 else 0) + (if s.endv.isSome then 1 else 0)

/-- Total number of entries in the database, LMDB's `env.stat()['entries']`. -/
def Store.entries (s : Store) : Nat :=
  s.slots.length + s.specialKeysCount

/-- A fresh queue database: no keys at all. -/
def Store.empty : Store :=
  ⟨none, none, []⟩

/-- Source `FifoQueueLmdb._get_first_item_number`:
`int(txn.get(b'start', b'0').decode())`, i.e. the stored head position,
defaulting to 0 when the key is absent. -/
def _get_first_item_number (s : Store) : Nat :=
  s.startv.getD 0

/-- Source `FifoQueueLmdb._put_first_item_number`: store the head position. -/
def _put_first_item_number (item_num : Nat) (s : Store) : Store :=
  { s with startv := some item_num }

/-- Source `FifoQueueLmdb._get_last_item_number`: the stored tail position,
defaulting to 0. -/
def _get_last_item_number (s : Store) : Nat :=
  s.endv.getD 0

/-- Source `FifoQueueLmdb._put_last_item_number`: store the tail position. -/
def _put_last_item_number (item_num : Nat) (s : Store) : Store :=
  { s with endv := some item_num }

/-- Source `FifoQueueLmdb._get_next_item_number`: advance a position by one,
starting a new cycle after `ITEMS_MAX - 1`. -/
def _get_next_item_number (previous_item_num : Nat) : Nat :=
  if previous_item_num = ITEMS_MAX - 1 then 0 else previous_item_num + 1

/-- The `for i in range(items_count)` loop of `FifoQueueLmdb._pop`: while an
item is present, collect it, delete its key and advance the cursor; stop at
the first absent key or after `items_count` steps.  Returns the collected
items, the final cursor and the mutated store. -/
def popLoop : Store → Nat → Nat → List Item → List Item × Nat × Store
  | s, item_num, 0, acc => (acc, item_num, s)
  | s, item_num, n + 1, acc =>
    match s.getSlot item_num with
    | some item =>
      popLoop (s.delSlot item_num) (_get_next_item_number item_num) n (acc ++ [item])
    | none => (acc, item_num, s)

/-- The `for i in range(items_count)` loop of `FifoQueueLmdb._get`: like the
pop loop but without deleting; the store is untouched so only the collected
items are returned. -/
def getLoop : Store → Nat → Nat → List Item → List Item
  | _, _, 0, acc => acc
  | s, item_num, n + 1, acc =>
    match s.getSlot item_num with
    | some item => getLoop s (_get_next_item_number item_num) n (acc ++ [item])
    | none => acc

/-- The `for i in range(items_count)` loop of `FifoQueueLmdb._remove`: delete
present keys, advancing the cursor, stopping at the first absent key. -/
def removeLoop : Store → Nat → Nat → Nat × Store
  | s, item_num, 0 => (item_num, s)
  | s, item_num, n + 1 =>
    match s.getSlot item_num with
    | some _ => removeLoop (s.delSlot item_num) (_get_next_item_number item_num) n
    | none => (item_num, s)

/-- Transaction body of `FifoQueueLmdb._pop` (the non-failing path): run the
loop from the stored head, persist the final cursor as the new head, return
the collected items. -/
def popTxn (s : Store) (items_count : Nat) : List Item × Store :=
  let r := popLoop s (_get_first_item_number s) items_count []
  (r.1, _put_first_item_number r.2.1 r.2.2)

/-- Transaction body of `FifoQueueLmdb._get` (the non-failing path): the items
collected by the read-only walk from the stored head; the store is not
mutated. -/
def getTxn (s : Store) (items_count : Nat) : List Item :=
  getLoop s (_get_first_item_number s) items_count []

/-- Transaction body of `FifoQueueLmdb._remove` (the non-failing path). -/
def removeTxn (s : Store) (items_count : Nat) : Store :=
  let r := removeLoop s (_get_first_item_number s) items_count
  _put_first_item_number r.1 r.2

/-- Source `FifoQueueLmdb._permit_put`: whether putting the given items is
allowed.  Counts the reserved keys present, subtracts them from the total
entry count and admits the batch when the resulting future item count stays
within `ITEMS_MAX`. -/
def _permit_put (s : Store) (items : List Item) : Bool :=
  let special_keys_count := s.specialKeysCount
  let current_items_count := s.entries - special_keys_count
  let future_items_count := items.length + current_items_count
  decide (future_items_count ≤ ITEMS_MAX)

/-- The `for item in items` loop of `FifoQueueLmdb._put`: store each item at
the cursor and advance it. -/
def putLoop : Store → Nat → List Item → Nat × Store
  | s, item_num, [] => (item_num, s)
  | s, item_num, item :: rest =>
    putLoop (s.putSlot item_num item) (_get_next_item_number item_num) rest

/-- Transaction body of `FifoQueueLmdb._put`: when the batch is permitted,
write every item starting at the stored tail and persist the advanced tail;
otherwise raise `TryLater` (which aborts the transaction, leaving the store
unchanged). -/
def putTxn (s : Store) (items : List Item) : PyResult Store :=
  if _permit_put s items then
    let r := putLoop s (_get_last_item_number s) items
    PyResult.ok (_put_last_item_number r.1 r.2)
  else
    PyResult.raised QErr.tryLater

/-- A dynamically typed Python argument value, as far as the argument
validations of `FifoQueueLmdb` inspect it. -/
inductive PyArg
  | int (n : Int)
  | bytes (b : Item)
  | str (s : String)
  | list (xs : List PyArg)
  | tuple (xs : List PyArg)
  | none_

/-- Python `isinstance(x, bytes)`. -/
def PyArg.isBytes : PyArg → Bool
  | .bytes _ => true
  | _ => false

/-- Python `len(x)` for a bytes value (only ever applied after the
all-elements-are-bytes check has passed). -/
def PyArg.bytesLen : PyArg → Nat
  | .bytes b => b.length
  | _ => 0

/-- Payload of a bytes value. -/
def PyArg.asBytes : PyArg → Item
  | .bytes b => b
  | _ => []

/-- Element extraction used once validation has accepted a list/tuple of
bytes. -/
def PyArg.toItems : PyArg → List Item
  | .list xs => xs.map PyArg.asBytes
  | .tuple xs => xs.map PyArg.asBytes
  | _ => []

/-- Count extraction used once validation has accepted an integer count. -/
def PyArg.toCount : PyArg → Nat
  | .int n => n.toNat
  | _ => 0

/-- The validation chain at the top of `FifoQueueLmdb.put` (fifo.py lines
63-72), in source order, returning the first error raised, if any. -/
def validate_items_list (xs : List PyArg) : Option QErr :=
  if xs.isEmpty then some QErr.argumentError
  else if ITEMS_MAX < xs.length then some QErr.argumentError
  else if ¬ xs.all PyArg.isBytes then some QErr.argumentError
  else if ¬ xs.all (fun i => decide (i.bytesLen ≤ ITEM_MAX)) then some QErr.argumentError
  else none

/-- Entry check `isinstance(items, (list, tuple))` plus the list checks. -/
def validate_put_items (items : PyArg) : Option QErr :=
  match items with
  | .list xs => validate_items_list xs
  | .tuple xs => validate_items_list xs
  | _ => some QErr.argumentError

/-- Source `FifoQueueLmdb._validate_arg_items_count`: the count must be an
integer in `1 .. ITEMS_MAX`.  Python `bool` is a subclass of `int`, so only
genuinely non-integer values fail the isinstance check. -/
def _validate_arg_items_count (items_count : PyArg) : Option QErr :=
  match items_count with
  | .int n =>
    if n ≤ 0 then some QErr.argumentError
    else if (ITEMS_MAX : Int) < n then some QErr.argumentError
    else none
  | _ => some QErr.argumentError

/-- Public `FifoQueueLmdb.put`: validate, then run `_put`.  On a storage
failure inside the transaction the writes are rolled back and the
`except lmdb.Error` clause re-raises as `QueueError`; a denied capacity check
re-raises `TryLater`. -/
def put (storeFails : Bool) (s : Store) (items : PyArg) : PyResult Unit × Store :=
  match validate_put_items items with
  | some e => (PyResult.raised e, s)
  | none =>
    if storeFails then (PyResult.raised QErr.queueError, s)
    else
      match putTxn s items.toItems with
      | PyResult.ok s' => (PyResult.ok (), s')
      | PyResult.raised e => (PyResult.raised e, s)

/-- Public `FifoQueueLmdb.get`: validate, then run `_get`.  On a storage
failure the `except lmdb.Error` clause only logs, so `_get` falls through and
implicitly returns Python `None`; hence the `Option` in the result. -/
def get (storeFails : Bool) (s : Store) (items_count : PyArg) :
    PyResult (Option (List Item)) × Store :=
  match _validate_arg_items_count items_count with
  | some e => (PyResult.raised e, s)
  | none =>
    if storeFails then (PyResult.ok none, s)
    else (PyResult.ok (some (getTxn s items_count.toCount)), s)

/-- Public `FifoQueueLmdb.remove`: validate, then run `_remove`.  On a storage
failure the rolled-back transaction is logged and swallowed; the method
returns normally either way. -/
def remove (storeFails : Bool) (s : Store) (items_count : PyArg) :
    PyResult Unit × Store :=
  match _validate_arg_items_count items_count with
  | some e => (PyResult.raised e, s)
  | none =>
    if storeFails then (PyResult.ok (), s)
    else (PyResult.ok (), removeTxn s items_count.toCount)

/-- Public `FifoQueueLmdb.pop`: validate, then run `_pop`.  On a storage
failure the rolled-back transaction is logged and swallowed and the method
implicitly returns Python `None`. -/
def pop (storeFails : Bool) (s : Store) (items_count : PyArg) :
    PyResult (Option (List Item)) × Store :=
  match _validate_arg_items_count items_count with
  | some e => (PyResult.raised e, s)
  | none =>
    if storeFails then (PyResult.ok none, s)
    else
      let r := popTxn s items_count.toCount
      (PyResult.ok (some r.1), r.2)

/-- Position reached after `n` applications of `_get_next_item_number`. -/
def iterNext (i : Nat) : Nat → Nat
  | 0 => i
  | n + 1 => _get_next_item_number (iterNext i n)

/-- The list of positions probed by a queue walk of `n` steps starting at
`i`. -/
def probes : Nat → Nat → List Nat
  | _, 0 => []
  | i, n + 1 => i :: probes (_get_next_item_number i) n

/-- Keys of the item entries present in the store. -/
def keys (s : Store) : List Nat :=
  s.slots.map Prod.fst

/-- Logical FIFO content of a store: the values along the walk of
`slots.length` steps from the stored head. -/
def queueItems (s : Store) : List Item :=
  (probes (_get_first_item_number s) s.slots.length).filterMap s.getSlot

/-- Consistency invariant of a committed queue state: head in range, tail the
head advanced by the number of stored items, at most `ITEMS_MAX` items, item
keys unique, and an item key present exactly when it lies on the walk of
`slots.length` steps from the head. -/
structure Inv (s : Store) : Prop where
  head_lt : _get_first_item_number s < ITEMS_MAX
  tail_eq : _get_last_item_number s = iterNext (_get_first_item_number s) s.slots.length
  count_le : s.slots.length ≤ ITEMS_MAX
  nodup_keys : (keys s).Nodup
  mem_iff : ∀ k, (s.getSlot k).isSome ↔ k ∈ probes (_get_first_item_number s) s.slots.length

/-- Committed states reachable from a fresh queue by arbitrary public calls
(valid or invalid arguments, failing or non-failing store). -/
inductive Reachable : Store → Prop
  | init : Reachable Store.empty
  | put (f : Bool) (s : Store) (a : PyArg) : Reachable s → Reachable (Nque.put f s a).2
  | get (f : Bool) (s : Store) (a : PyArg) : Reachable s → Reachable (Nque.get f s a).2
  | remove (f : Bool) (s : Store) (a : PyArg) : Reachable s → Reachable (Nque.remove f s a).2
  | pop (f : Bool) (s : Store) (a : PyArg) : Reachable s → Reachable (Nque.pop f s a).2

/-- Whether a call raised an exception. -/
def PyResult.isRaised : PyResult A → Bool
  | .ok _ => false
  | .raised _ => true

/-- Delete a list of item positions in order (used to describe the effect of
the pop/remove loops). -/
def delProbes (s : Store) (ks : List Nat) : Store :=
  ks.foldl Store.delSlot s

/-- Malformed `items` argument for `put`, as enumerated by the claim: not a
list/tuple, empty, longer than `ITEMS_MAX`, containing a non-bytes element,
or containing an item exceeding `ITEM_MAX` bytes. -/
def MalformedPutItems (a : PyArg) : Prop :=
  match a with
  | .list xs => xs = [] ∨ ITEMS_MAX < xs.length ∨ (∃ x ∈ xs, x.isBytes = false) ∨
      (∃ x ∈ xs, ITEM_MAX < x.bytesLen)
  | .tuple xs => xs = [] ∨ ITEMS_MAX < xs.length ∨ (∃ x ∈ xs, x.isBytes = false) ∨
      (∃ x ∈ xs, ITEM_MAX < x.bytesLen)
  | _ => True

/-- Malformed `items_count` argument for `get`/`remove`/`pop`, as enumerated
by the claim: not an integer, non-positive, or exceeding `ITEMS_MAX`. -/
def MalformedCount (a : PyArg) : Prop :=
  match a with
  | .int n => n ≤ 0 ∨ (ITEMS_MAX : Int) < n
  | _ => True

theorem lookupSlot_eraseSlot_self (l : List (Nat × Item)) (k : Nat) :
    lookupSlot (eraseSlot l k) k = none := by
  induction l with
  | nil => rfl
  | cons p ps ih =>
    by_cases h : p.1 = k
    · simpa [eraseSlot, h] using ih
    · simp [eraseSlot, lookupSlot, h, ih]

theorem lookupSlot_eraseSlot_ne (l : List (Nat × Item)) (k k' : Nat) (h : k' ≠ k) :
    lookupSlot (eraseSlot l k) k' = lookupSlot l k' := by
  induction l with
  | nil => rfl
  | cons p ps ih =>
    by_cases hp : p.1 = k
    · simp [eraseSlot, hp, lookupSlot, Ne.symm h, ih]
    · simp [eraseSlot, lookupSlot, hp, ih]

theorem lookupSlot_isSome_iff (l : List (Nat × Item)) (k : Nat) :
    (lookupSlot l k).isSome ↔ k ∈ l.map Prod.fst := by
  induction l with
  | nil => simp [lookupSlot]
  | cons p ps ih =>
    by_cases h : p.1 = k
    · simp [lookupSlot, h, List.mem_cons]
    · simp only [lookupSlot, if_neg h, List.map_cons, List.mem_cons, ih]
      constructor
      · exact Or.inr
      · rintro (e | e)
        · exact absurd e.symm h
        · exact e

theorem eraseSlot_of_not_mem (l : List (Nat × Item)) (k : Nat)
    (h : k ∉ l.map Prod.fst) : eraseSlot l k = l := by
  induction l with
  | nil => rfl
  | cons p ps ih =>
    simp only [List.map_cons, List.mem_cons] at h
    push_neg at h
    simp [eraseSlot, Ne.symm h.1, ih h.2]

theorem mem_map_fst_eraseSlot (l : List (Nat × Item)) (k a : Nat) :
    a ∈ (eraseSlot l k).map Prod.fst ↔ a ∈ l.map Prod.fst ∧ a ≠ k := by
  induction l with
  | nil => simp [eraseSlot]
  | cons p ps ih =>
    by_cases hp : p.1 = k
    · rw [eraseSlot, if_pos hp, ih]
      simp only [List.map_cons, List.mem_cons]
      constructor
      · rintro ⟨ha, hk⟩
        exact ⟨Or.inr ha, hk⟩
      · rintro ⟨ha | ha, hk⟩
        · exact absurd (ha.trans hp) hk
        · exact ⟨ha, hk⟩
    · rw [eraseSlot, if_neg hp]
      simp only [List.map_cons, List.mem_cons, ih]
      constructor
      · rintro (rfl | ⟨ha, hk⟩)
        · exact ⟨Or.inl rfl, fun e => hp e⟩
        · exact ⟨Or.inr ha, hk⟩
      · rintro ⟨ha | ha, hk⟩
        · exact Or.inl ha
        · exact Or.inr ⟨ha, hk⟩

theorem nodup_map_fst_eraseSlot (l : List (Nat × Item)) (k : Nat)
    (h : (l.map Prod.fst).Nodup) : ((eraseSlot l k).map Prod.fst).Nodup := by
  induction l with
  | nil => simp [eraseSlot]
  | cons p ps ih =>
    simp only [List.map_cons, List.nodup_cons] at h
    by_cases hp : p.1 = k
    · simpa [eraseSlot, hp] using ih h.2
    · simp only [eraseSlot, if_neg hp, List.map_cons, List.nodup_cons]
      exact ⟨fun hm => h.1 ((mem_map_fst_eraseSlot ps k p.1).mp hm).1, ih h.2⟩

theorem length_eraseSlot_of_mem (l : List (Nat × Item)) (k : Nat)
    (hnd : (l.map Prod.fst).Nodup) (h : k ∈ l.map Prod.fst) :
    (eraseSlot l k).length + 1 = l.length := by
  induction l with
  | nil => simp at h
  | cons p ps ih =>
    simp only [List.map_cons, List.nodup_cons] at hnd
    by_cases hp : p.1 = k
    · have hnm : k ∉ ps.map Prod.fst := hp ▸ hnd.1
      simp [eraseSlot, hp, eraseSlot_of_not_mem ps k hnm]
    · have hk : k ∈ ps.map Prod.fst := by
        rcases List.mem_cons.mp h with e | e
        · exact absurd e.symm hp
        · exact e
      simp only [eraseSlot, if_neg hp, List.length_cons]
      rw [← ih hnd.2 hk]

theorem getSlot_putSlot_self (s : Store) (k : Nat) (v : Item) :
    (s.putSlot k v).getSlot k = some v := by
  simp [Store.getSlot, Store.putSlot, lookupSlot]

theorem getSlot_putSlot_ne (s : Store) (k : Nat) (v : Item) (k' : Nat) (h : k' ≠ k) :
    (s.putSlot k v).getSlot k' = s.getSlot k' := by
  simp [Store.getSlot, Store.putSlot, lookupSlot, Ne.symm h,
    lookupSlot_eraseSlot_ne s.slots k k' h]

theorem getSlot_delSlot_self (s : Store) (k : Nat) :
    (s.delSlot k).getSlot k = none := by
  simp [Store.getSlot, Store.delSlot, lookupSlot_eraseSlot_self]

theorem getSlot_delSlot_ne (s : Store) (k k' : Nat) (h : k' ≠ k) :
    (s.delSlot k).getSlot k' = s.getSlot k' := by
  simp [Store.getSlot, Store.delSlot, lookupSlot_eraseSlot_ne s.slots k k' h]

theorem getSlot_isSome_iff_mem_keys (s : Store) (k : Nat) :
    (s.getSlot k).isSome ↔ k ∈ keys s :=
  lookupSlot_isSome_iff s.slots k

theorem first_putSlot (s : Store) (k : Nat) (v : Item) :
    _get_first_item_number (s.putSlot k v) = _get_first_item_number s := rfl

theorem last_putSlot (s : Store) (k : Nat) (v : Item) :
    _get_last_item_number (s.putSlot k v) = _get_last_item_number s := rfl

theorem first_delSlot (s : Store) (k : Nat) :
    _get_first_item_number (s.delSlot k) = _get_first_item_number s := rfl

theorem last_delSlot (s : Store) (k : Nat) :
    _get_last_item_number (s.delSlot k) = _get_last_item_number s := rfl

theorem getSlot_put_first (s : Store) (i k : Nat) :
    (_put_first_item_number i s).getSlot k = s.getSlot k := rfl

theorem getSlot_put_last (s : Store) (i k : Nat) :
    (_put_last_item_number i s).getSlot k = s.getSlot k := rfl

theorem itemsMax_pos : 0 < ITEMS_MAX := by decide

theorem next_eq_mod (i : Nat) (h : i < ITEMS_MAX) :
    _get_next_item_number i = (i + 1) % ITEMS_MAX := by
  simp only [_get_next_item_number, ITEMS_MAX] at *
  split_ifs with hi <;> omega

theorem next_lt (i : Nat) (h : i < ITEMS_MAX) :
    _get_next_item_number i < ITEMS_MAX := by
  simp only [_get_next_item_number, ITEMS_MAX] at *
  split_ifs with hi <;> omega

theorem next_of_ge (i : Nat) (h : ITEMS_MAX ≤ i) :
    _get_next_item_number i = i + 1 := by
  simp only [_get_next_item_number, ITEMS_MAX] at *
  split_ifs with hi <;> omega

theorem iterNext_eq_mod (i : Nat) (h : i < ITEMS_MAX) (n : Nat) :
    iterNext i n = (i + n) % ITEMS_MAX := by
  induction n with
  | zero => simpa [iterNext] using (Nat.mod_eq_of_lt h).symm
  | succ n ih =>
    rw [iterNext, ih, next_eq_mod _ (Nat.mod_lt _ itemsMax_pos)]
    simp only [ITEMS_MAX]
    omega

theorem iterNext_lt (i : Nat) (h : i < ITEMS_MAX) (n : Nat) :
    iterNext i n < ITEMS_MAX := by
  rw [iterNext_eq_mod i h]
  exact Nat.mod_lt _ itemsMax_pos

theorem iterNext_of_ge (i : Nat) (h : ITEMS_MAX ≤ i) (n : Nat) :
    iterNext i n = i + n := by
  induction n with
  | zero => rfl
  | succ n ih =>
    rw [iterNext, ih, next_of_ge _ (by omega)]
    omega

theorem iterNext_add (i a b : Nat) :
    iterNext i (a + b) = iterNext (iterNext i a) b := by
  induction b with
  | zero => rfl
  | succ b ih => rw [← Nat.add_assoc, iterNext, iterNext, ih]

theorem iterNext_next (i n : Nat) :
    iterNext (_get_next_item_number i) n = iterNext i (n + 1) := by
  rw [Nat.add_comm, iterNext_add]
  rfl

theorem iterNext_inj (i j k : Nat) (hj : j < ITEMS_MAX) (hk : k < ITEMS_MAX)
    (h : iterNext i j = iterNext i k) : j = k := by
  by_cases hi : i < ITEMS_MAX
  · rw [iterNext_eq_mod i hi, iterNext_eq_mod i hi] at h
    simp only [ITEMS_MAX] at *
    omega
  · rw [iterNext_of_ge i (by omega), iterNext_of_ge i (by omega)] at h
    omega

theorem length_probes (i n : Nat) : (probes i n).length = n := by
  induction n generalizing i with
  | zero => rfl
  | succ n ih => simp [probes, ih]

theorem probes_eq_map_range (i n : Nat) :
    probes i n = (List.range n).map (iterNext i) := by
  induction n generalizing i with
  | zero => rfl
  | succ n ih =>
    rw [List.range_succ_eq_map, List.map_cons, List.map_map]
    show i :: probes (_get_next_item_number i) n =
      iterNext i 0 :: (List.range n).map (iterNext i ∘ Nat.succ)
    rw [ih]
    congr 1
    apply List.map_congr_left
    intro j hj
    show iterNext (_get_next_item_number i) j = iterNext i (j + 1)
    exact iterNext_next i j

theorem mem_probes (k i n : Nat) : k ∈ probes i n ↔ ∃ j < n, k = iterNext i j := by
  induction n generalizing i with
  | zero => simp [probes]
  | succ n ih =>
    simp only [probes, List.mem_cons, ih]
    constructor
    · rintro (rfl | ⟨j, hj, rfl⟩)
      · exact ⟨0, by omega, rfl⟩
      · exact ⟨j + 1, by omega, iterNext_next i j⟩
    · rintro ⟨j, hj, rfl⟩
      match j with
      | 0 => exact Or.inl rfl
      | j + 1 => exact Or.inr ⟨j, by omega, (iterNext_next i j).symm⟩

theorem probes_append (i a b : Nat) :
    probes i (a + b) = probes i a ++ probes (iterNext i a) b := by
  induction a generalizing i with
  | zero => simp [probes, iterNext]
  | succ a ih =>
    have e : a + 1 + b = (a + b) + 1 := by omega
    rw [e]
    show i :: probes (_get_next_item_number i) (a + b) = _
    rw [ih, iterNext_next]
    rfl

theorem probes_nodup (i n : Nat) (h : n ≤ ITEMS_MAX) : (probes i n).Nodup := by
  rw [probes_eq_map_range]
  refine List.Nodup.map_on ?_ (List.nodup_range n)
  intro x hx y hy hxy
  rw [List.mem_range] at hx hy
  exact iterNext_inj i x y (by omega) (by omega) hxy

theorem getLoop_spec (n : Nat) (s : Store) (i c : Nat) (acc : List Item)
    (hw : ∀ j, j < n → ((s.getSlot (iterNext i j)).isSome ↔ j < c)) :
    getLoop s i n acc =
      acc ++ (probes i (min n c)).map (fun k => (s.getSlot k).getD []) := by
  induction n generalizing i c acc with
  | zero => simp [getLoop, probes]
  | succ n ih =>
    rcases c with _ | c
    · have h0 : s.getSlot i = none := by
        cases hopt : s.getSlot i with
        | none => rfl
        | some v =>
          have h1 := (hw 0 (by omega)).mp
            (by rw [show iterNext i 0 = i from rfl, hopt]; rfl)
          omega
      simp [getLoop, h0, probes]
    · have h1 : (s.getSlot i).isSome := by
        have := (hw 0 (by omega)).mpr (by omega)
        rwa [show iterNext i 0 = i from rfl] at this
      obtain ⟨v, hv⟩ := Option.isSome_iff_exists.mp h1
      have hw' : ∀ j, j < n →
          ((s.getSlot (iterNext (_get_next_item_number i) j)).isSome ↔ j < c) := by
        intro j hj
        rw [iterNext_next]
        exact (hw (j + 1) (by omega)).trans (by omega)
      simp only [getLoop, hv]
      rw [ih (_get_next_item_number i) c (acc ++ [v]) hw', Nat.succ_min_succ]
      show _ = acc ++ ((i :: probes (_get_next_item_number i) (min n c)).map
        (fun k => (s.getSlot k).getD []))
      simp [hv]

theorem removeLoop_spec (n : Nat) (s : Store) (i c : Nat)
    (hn : n ≤ ITEMS_MAX)
    (hw : ∀ j, j < n → ((s.getSlot (iterNext i j)).isSome ↔ j < c)) :
    removeLoop s i n = (iterNext i (min n c), delProbes s (probes i (min n c))) := by
  induction n generalizing s i c with
  | zero => simp [removeLoop, probes, delProbes, iterNext]
  | succ n ih =>
    rcases c with _ | c
    · have h0 : s.getSlot i = none := by
        cases hopt : s.getSlot i with
        | none => rfl
        | some v =>
          have h1 := (hw 0 (by omega)).mp
            (by rw [show iterNext i 0 = i from rfl, hopt]; rfl)
          omega
      simp [removeLoop, h0, probes, delProbes, iterNext]
    · have h1 : (s.getSlot i).isSome := by
        have := (hw 0 (by omega)).mpr (by omega)
        rwa [show iterNext i 0 = i from rfl] at this
      obtain ⟨v, hv⟩ := Option.isSome_iff_exists.mp h1
      have hw' : ∀ j, j < n →
          (((s.delSlot i).getSlot (iterNext (_get_next_item_number i) j)).isSome ↔ j < c) := by
        intro j hj
        rw [iterNext_next, getSlot_delSlot_ne s i (iterNext i (j + 1))]
        · exact (hw (j + 1) (by omega)).trans (by omega)
        · intro e
          have e0 : iterNext i (j + 1) = iterNext i 0 := e
          have := iterNext_inj i (j + 1) 0 (by omega) (by omega) e0
          omega
      simp only [removeLoop, hv]
      rw [ih (s.delSlot i) (_get_next_item_number i) c (by omega) hw']
      rw [iterNext_next, Nat.succ_min_succ]
      show _ = (iterNext i (min n c + 1),
        delProbes s (i :: probes (_get_next_item_number i) (min n c)))
      rfl

theorem popLoop_snd_eq_removeLoop (n : Nat) (s : Store) (i : Nat) (acc : List Item) :
    (popLoop s i n acc).2 = removeLoop s i n := by
  induction n generalizing s i acc with
  | zero => rfl
  | succ n ih =>
    cases hg : s.getSlot i with
    | none => simp [popLoop, removeLoop, hg]
    | some v => simp [popLoop, removeLoop, hg, ih]

theorem getLoop_delSlot_not_mem (n : Nat) (s : Store) (k i : Nat) (acc : List Item)
    (h : k ∉ probes i n) :
    getLoop (s.delSlot k) i n acc = getLoop s i n acc := by
  induction n generalizing i acc with
  | zero => rfl
  | succ n ih =>
    have hcons : k ∉ (i :: probes (_get_next_item_number i) n) := h
    have hki : i ≠ k := fun e => hcons (by rw [e]; exact List.mem_cons_self _ _)
    have htail : k ∉ probes (_get_next_item_number i) n :=
      fun hm => hcons (List.mem_cons_of_mem _ hm)
    cases hg : s.getSlot i with
    | none => simp [getLoop, getSlot_delSlot_ne s k i hki, hg]
    | some v => simp [getLoop, getSlot_delSlot_ne s k i hki, hg, ih _ _ htail]

theorem popLoop_fst_eq_getLoop (n : Nat) (s : Store) (i : Nat) (acc : List Item)
    (hnd : (probes i n).Nodup) :
    (popLoop s i n acc).1 = getLoop s i n acc := by
  induction n generalizing s i acc with
  | zero => rfl
  | succ n ih =>
    have hcons : (i :: probes (_get_next_item_number i) n).Nodup := hnd
    rw [List.nodup_cons] at hcons
    cases hg : s.getSlot i with
    | none => simp [popLoop, getLoop, hg]
    | some v =>
      simp only [popLoop, getLoop, hg]
      rw [ih (s.delSlot i) (_get_next_item_number i) (acc ++ [v]) hcons.2]
      exact getLoop_delSlot_not_mem n s i (_get_next_item_number i) (acc ++ [v]) hcons.1

theorem slots_putSlot_not_mem (s : Store) (k : Nat) (v : Item) (h : k ∉ keys s) :
    (s.putSlot k v).slots = (k, v) :: s.slots := by
  unfold Store.putSlot
  rw [eraseSlot_of_not_mem s.slots k h]

theorem keys_putSlot_not_mem (s : Store) (k : Nat) (v : Item) (h : k ∉ keys s) :
    keys (s.putSlot k v) = k :: keys s := by
  unfold keys
  rw [slots_putSlot_not_mem s k v h]
  rfl

theorem putLoop_fst (s : Store) (i : Nat) (B : List Item) :
    (putLoop s i B).1 = iterNext i B.length := by
  induction B generalizing s i with
  | nil => rfl
  | cons b bs ih =>
    show (putLoop (s.putSlot i b) (_get_next_item_number i) bs).1 = _
    rw [ih, iterNext_next]
    rfl

theorem putLoop_startv (s : Store) (i : Nat) (B : List Item) :
    (putLoop s i B).2.startv = s.startv := by
  induction B generalizing s i with
  | nil => rfl
  | cons b bs ih => exact ih (s.putSlot i b) (_get_next_item_number i)

theorem putLoop_endv (s : Store) (i : Nat) (B : List Item) :
    (putLoop s i B).2.endv = s.endv := by
  induction B generalizing s i with
  | nil => rfl
  | cons b bs ih => exact ih (s.putSlot i b) (_get_next_item_number i)

theorem putLoop_getSlot_not_mem (B : List Item) (s : Store) (i k : Nat)
    (h : k ∉ probes i B.length) :
    (putLoop s i B).2.getSlot k = s.getSlot k := by
  induction B generalizing s i with
  | nil => rfl
  | cons b bs ih =>
    have hcons : k ∉ (i :: probes (_get_next_item_number i) bs.length) := h
    have hki : k ≠ i := fun e => hcons (by rw [e]; exact List.mem_cons_self _ _)
    have htail : k ∉ probes (_get_next_item_number i) bs.length :=
      fun hm => hcons (List.mem_cons_of_mem _ hm)
    show (putLoop (s.putSlot i b) (_get_next_item_number i) bs).2.getSlot k = _
    rw [ih (s.putSlot i b) (_get_next_item_number i) htail,
      getSlot_putSlot_ne s i b k hki]

theorem putLoop_getSlot_at (B : List Item) (s : Store) (i : Nat)
    (hnd : (probes i B.length).Nodup) (j : Nat) (hj : j < B.length) :
    (putLoop s i B).2.getSlot (iterNext i j) = some (B.getD j []) := by
  induction B generalizing s i j with
  | nil => simp at hj
  | cons b bs ih =>
    have hcons : (i :: probes (_get_next_item_number i) bs.length).Nodup := hnd
    rw [List.nodup_cons] at hcons
    rcases j with _ | j
    · show (putLoop (s.putSlot i b) (_get_next_item_number i) bs).2.getSlot
        (iterNext i 0) = some b
      rw [show iterNext i 0 = i from rfl]
      rw [putLoop_getSlot_not_mem bs (s.putSlot i b) (_get_next_item_number i) i hcons.1]
      exact getSlot_putSlot_self s i b
    · have hj' : j < bs.length := by
        simp only [List.length_cons] at hj
        omega
      show (putLoop (s.putSlot i b) (_get_next_item_number i) bs).2.getSlot
        (iterNext i (j + 1)) = some (bs.getD j [])
      rw [← iterNext_next]
      exact ih (s.putSlot i b) (_get_next_item_number i) hcons.2 j hj'

theorem putLoop_slots (B : List Item) (s : Store) (i : Nat)
    (hnd : (probes i B.length).Nodup)
    (hdisj : ∀ j, j < B.length → iterNext i j ∉ keys s)
    (hks : (keys s).Nodup) :
    (putLoop s i B).2.slots.length = s.slots.length + B.length ∧
      (keys (putLoop s i B).2).Nodup := by
  induction B generalizing s i with
  | nil => exact ⟨(Nat.add_zero _).symm, hks⟩
  | cons b bs ih =>
    have hcons : (i :: probes (_get_next_item_number i) bs.length).Nodup := hnd
    rw [List.nodup_cons] at hcons
    have hi : i ∉ keys s := hdisj 0 (by simp)
    have hkeys1 : keys (s.putSlot i b) = i :: keys s := keys_putSlot_not_mem s i b hi
    have hdisj' : ∀ j, j < bs.length →
        iterNext (_get_next_item_number i) j ∉ keys (s.putSlot i b) := by
      intro j hj
      rw [hkeys1, iterNext_next]
      intro hm
      rcases List.mem_cons.mp hm with e | e
      · apply hcons.1
        rw [mem_probes]
        exact ⟨j, hj, e.symm.trans (iterNext_next i j).symm⟩
      · exact hdisj (j + 1) (by simp only [List.length_cons]; omega) e
    have hslots1 : (s.putSlot i b).slots = (i, b) :: s.slots := slots_putSlot_not_mem s i b hi
    have hks1 : (keys (s.putSlot i b)).Nodup := by
      rw [hkeys1]
      exact List.nodup_cons.mpr ⟨hi, hks⟩
    obtain ⟨hlen, hnodup⟩ := ih (s.putSlot i b) (_get_next_item_number i) hcons.2 hdisj' hks1
    refine ⟨?_, hnodup⟩
    show (putLoop (s.putSlot i b) (_get_next_item_number i) bs).2.slots.length = _
    rw [hlen, hslots1]
    simp only [List.length_cons]
    omega

theorem delProbes_cons (s : Store) (a : Nat) (L : List Nat) :
    delProbes s (a :: L) = delProbes (s.delSlot a) L := rfl

theorem getSlot_delProbes (L : List Nat) (s : Store) (k : Nat) :
    (delProbes s L).getSlot k = if k ∈ L then none else s.getSlot k := by
  induction L generalizing s with
  | nil => simp [delProbes]
  | cons a L ih =>
    rw [delProbes_cons, ih]
    by_cases hk : k ∈ L
    · simp [hk]
    · by_cases hka : k = a
      · subst hka
        simp [hk, getSlot_delSlot_self]
      · simp [hk, hka, getSlot_delSlot_ne s a k hka]

theorem startv_delProbes (L : List Nat) (s : Store) :
    (delProbes s L).startv = s.startv := by
  induction L generalizing s with
  | nil => rfl
  | cons a L ih => exact ih (s.delSlot a)

theorem endv_delProbes (L : List Nat) (s : Store) :
    (delProbes s L).endv = s.endv := by
  induction L generalizing s with
  | nil => rfl
  | cons a L ih => exact ih (s.delSlot a)

theorem keys_delProbes_nodup (L : List Nat) (s : Store) (h : (keys s).Nodup) :
    (keys (delProbes s L)).Nodup := by
  induction L generalizing s with
  | nil => exact h
  | cons a L ih => exact ih (s.delSlot a) (nodup_map_fst_eraseSlot s.slots a h)

theorem length_delProbes (L : List Nat) (s : Store)
    (hk : (keys s).Nodup) (hL : L.Nodup) (hsub : ∀ k ∈ L, k ∈ keys s) :
    (delProbes s L).slots.length + L.length = s.slots.length := by
  induction L generalizing s with
  | nil => simp [delProbes]
  | cons a L ih =>
    rw [List.nodup_cons] at hL
    have ha : a ∈ keys s := hsub a (List.mem_cons_self _ _)
    have hlen := length_eraseSlot_of_mem s.slots a hk ha
    have hsub' : ∀ k ∈ L, k ∈ keys (s.delSlot a) := by
      intro k hkL
      have hks : k ∈ keys s := hsub k (List.mem_cons_of_mem _ hkL)
      exact (mem_map_fst_eraseSlot s.slots a k).mpr ⟨hks, fun e => hL.1 (e ▸ hkL)⟩
    have hrec := ih (s.delSlot a) (nodup_map_fst_eraseSlot s.slots a hk) hL.2 hsub'
    have e1 : (s.delSlot a).slots = eraseSlot s.slots a := rfl
    rw [e1] at hrec
    rw [delProbes_cons]
    simp only [List.length_cons]
    omega

theorem permit_put_iff (s : Store) (items : List Item) :
    _permit_put s items = true ↔ items.length + s.slots.length ≤ ITEMS_MAX := by
  show decide (items.length + (s.entries - s.specialKeysCount) ≤ ITEMS_MAX) = true ↔ _
  have e : s.entries - s.specialKeysCount = s.slots.length := by
    show s.slots.length + s.specialKeysCount - s.specialKeysCount = s.slots.length
    omega
  rw [e]
  exact ⟨fun h => of_decide_eq_true h, fun h => decide_eq_true h⟩

theorem putTxn_not_permitted (s : Store) (B : List Item)
    (h : ¬(B.length + s.slots.length ≤ ITEMS_MAX)) :
    putTxn s B = PyResult.raised QErr.tryLater := by
  have hp : _permit_put s B = false := by
    cases hb : _permit_put s B
    · rfl
    · exact absurd ((permit_put_iff s B).mp hb) h
  simp [putTxn, hp]

theorem putTxn_permitted (s : Store) (B : List Item)
    (h : B.length + s.slots.length ≤ ITEMS_MAX) :
    putTxn s B = PyResult.ok
      (_put_last_item_number (putLoop s (_get_last_item_number s) B).1
        (putLoop s (_get_last_item_number s) B).2) := by
  simp [putTxn, (permit_put_iff s B).mpr h]

theorem validate_items_list_eq_none (xs : List PyArg)
    (h1 : xs ≠ []) (h2 : xs.length ≤ ITEMS_MAX)
    (h3 : ∀ x ∈ xs, x.isBytes = true)
    (h4 : ∀ x ∈ xs, x.bytesLen ≤ ITEM_MAX) :
    validate_items_list xs = none := by
  have e1 : xs.isEmpty = false := by
    cases xs with
    | nil => exact absurd rfl h1
    | cons a l => rfl
  have e3 : xs.all PyArg.isBytes = true := List.all_eq_true.mpr h3
  have e4 : xs.all (fun i => decide (i.bytesLen ≤ ITEM_MAX)) = true :=
    List.all_eq_true.mpr (fun x hx => decide_eq_true (h4 x hx))
  simp [validate_items_list, e1, e3, e4, Nat.not_lt.mpr h2]

theorem validate_items_list_eq_some (xs : List PyArg)
    (h : xs = [] ∨ ITEMS_MAX < xs.length ∨ (∃ x ∈ xs, x.isBytes = false) ∨
      (∃ x ∈ xs, ITEM_MAX < x.bytesLen)) :
    validate_items_list xs = some QErr.argumentError := by
  unfold validate_items_list
  by_cases hA : xs.isEmpty
  · simp [hA]
  · rw [if_neg hA]
    by_cases hB : ITEMS_MAX < xs.length
    · simp [hB]
    · rw [if_neg hB]
      by_cases hC : xs.all PyArg.isBytes = true
      · rw [if_neg (by simp [hC])]
        by_cases hD : xs.all (fun i => decide (i.bytesLen ≤ ITEM_MAX)) = true
        · exfalso
          rcases h with h | h | ⟨x, hx, hb⟩ | ⟨x, hx, hs⟩
          · rw [h] at hA
            exact hA rfl
          · exact hB h
          · have hx1 := List.all_eq_true.mp hC x hx
            rw [hb] at hx1
            exact Bool.false_ne_true hx1
          · have hx1 := List.all_eq_true.mp hD x hx
            have := of_decide_eq_true hx1
            omega
        · rw [if_pos (by simpa using hD)]
      · rw [if_pos (by simpa using hC)]

theorem validate_count_int (n : Int) :
    _validate_arg_items_count (PyArg.int n) = none ↔
      0 < n ∧ n ≤ (ITEMS_MAX : Int) := by
  show (if n ≤ 0 then some QErr.argumentError
    else if (ITEMS_MAX : Int) < n then some QErr.argumentError else none) = none ↔ _
  constructor
  · intro h
    by_cases h1 : n ≤ 0
    · rw [if_pos h1] at h
      exact absurd h (by simp)
    · by_cases h2 : (ITEMS_MAX : Int) < n
      · rw [if_neg h1, if_pos h2] at h
        exact absurd h (by simp)
      · constructor <;> omega
  · intro hb
    rw [if_neg (by omega), if_neg (by omega)]

theorem validate_count_not_int (a : PyArg) (h : ∀ m : Int, a ≠ PyArg.int m) :
    _validate_arg_items_count a = some QErr.argumentError := by
  cases a with
  | int n => exact absurd rfl (h n)
  | bytes b => rfl
  | str s => rfl
  | list xs => rfl
  | tuple xs => rfl
  | none_ => rfl

theorem Inv.walk {s : Store} (hs : Inv s) (n : Nat) (hn : n ≤ ITEMS_MAX) :
    ∀ j, j < n → ((s.getSlot (iterNext (_get_first_item_number s) j)).isSome ↔
      j < s.slots.length) := by
  intro j hj
  rw [hs.mem_iff, mem_probes]
  constructor
  · rintro ⟨j', hj', he⟩
    have hc := hs.count_le
    have := iterNext_inj (_get_first_item_number s) j j' (by omega) (by omega) he
    omega
  · intro hjc
    exact ⟨j, hjc, rfl⟩

theorem popTxn_fst_eq_getTxn (s : Store) (n : Nat) (hn : n ≤ ITEMS_MAX) :
    (popTxn s n).1 = getTxn s n := by
  show (popLoop s (_get_first_item_number s) n []).1 =
    getLoop s (_get_first_item_number s) n []
  exact popLoop_fst_eq_getLoop n s _ [] (probes_nodup _ n hn)

theorem popTxn_snd_eq_removeTxn (s : Store) (n : Nat) :
    (popTxn s n).2 = removeTxn s n := by
  show _put_first_item_number (popLoop s (_get_first_item_number s) n []).2.1
      (popLoop s (_get_first_item_number s) n []).2.2 =
    _put_first_item_number (removeLoop s (_get_first_item_number s) n).1
      (removeLoop s (_get_first_item_number s) n).2
  rw [popLoop_snd_eq_removeLoop]

theorem getTxn_spec (s : Store) (n : Nat) (hs : Inv s) (hn : n ≤ ITEMS_MAX) :
    getTxn s n = (probes (_get_first_item_number s) (min n s.slots.length)).map
      (fun k => (s.getSlot k).getD []) := by
  show getLoop s (_get_first_item_number s) n [] = _
  rw [getLoop_spec n s _ s.slots.length [] (hs.walk n hn)]
  exact List.nil_append _

theorem removeTxn_spec (s : Store) (n : Nat) (hs : Inv s) (hn : n ≤ ITEMS_MAX) :
    removeTxn s n = _put_first_item_number
      (iterNext (_get_first_item_number s) (min n s.slots.length))
      (delProbes s (probes (_get_first_item_number s) (min n s.slots.length))) := by
  show _put_first_item_number (removeLoop s (_get_first_item_number s) n).1
      (removeLoop s (_get_first_item_number s) n).2 = _
  rw [removeLoop_spec n s _ s.slots.length hn (hs.walk n hn)]

theorem Inv_empty : Inv Store.empty := by
  constructor
  · decide
  · rfl
  · decide
  · exact List.nodup_nil
  · intro k
    simp [Store.getSlot, Store.empty, lookupSlot, probes]

theorem putTxn_ok_spec (s : Store) (B : List Item) (s' : Store) (hs : Inv s)
    (h : putTxn s B = PyResult.ok s') :
    B.length + s.slots.length ≤ ITEMS_MAX ∧
    _get_first_item_number s' = _get_first_item_number s ∧
    _get_last_item_number s' = iterNext (_get_last_item_number s) B.length ∧
    (∀ j, j < B.length →
      s'.getSlot (iterNext (_get_last_item_number s) j) = some (B.getD j [])) ∧
    (∀ k, k ∉ probes (_get_last_item_number s) B.length → s'.getSlot k = s.getSlot k) ∧
    s'.slots.length = s.slots.length + B.length ∧
    Inv s' := by
  have hperm : _permit_put s B = true := by
    cases hb : _permit_put s B
    · rw [putTxn, hb] at h
      simp at h
    · rfl
  have hcap : B.length + s.slots.length ≤ ITEMS_MAX := (permit_put_iff s B).mp hperm
  have hLM : B.length ≤ ITEMS_MAX := by omega
  have hs' : s' = _put_last_item_number (putLoop s (_get_last_item_number s) B).1
      (putLoop s (_get_last_item_number s) B).2 := by
    rw [putTxn_permitted s B hcap] at h
    injection h with h2
    exact h2.symm
  have hnd : (probes (_get_last_item_number s) B.length).Nodup :=
    probes_nodup _ _ hLM
  have hdisj : ∀ j, j < B.length →
      iterNext (_get_last_item_number s) j ∉ keys s := by
    intro j hj hmem
    have h1 : (s.getSlot (iterNext (_get_last_item_number s) j)).isSome :=
      (getSlot_isSome_iff_mem_keys s _).mpr hmem
    rw [hs.mem_iff, mem_probes] at h1
    obtain ⟨j', hj', he⟩ := h1
    rw [hs.tail_eq, ← iterNext_add] at he
    have hc := hs.count_le
    have := iterNext_inj (_get_first_item_number s) (s.slots.length + j) j'
      (by omega) (by omega) he
    omega
  obtain ⟨hlen, hnodup⟩ :=
    putLoop_slots B s (_get_last_item_number s) hnd hdisj hs.nodup_keys
  have hfirst : _get_first_item_number s' = _get_first_item_number s := by
    rw [hs']
    show ((putLoop s (_get_last_item_number s) B).2).startv.getD 0 = s.startv.getD 0
    rw [putLoop_startv]
  have hlast : _get_last_item_number s' = iterNext (_get_last_item_number s) B.length := by
    rw [hs']
    show (putLoop s (_get_last_item_number s) B).1 = _
    exact putLoop_fst s _ B
  have hat : ∀ j, j < B.length →
      s'.getSlot (iterNext (_get_last_item_number s) j) = some (B.getD j []) := by
    intro j hj
    rw [hs']
    show ((putLoop s (_get_last_item_number s) B).2).getSlot _ = _
    exact putLoop_getSlot_at B s _ hnd j hj
  have hframe : ∀ k, k ∉ probes (_get_last_item_number s) B.length →
      s'.getSlot k = s.getSlot k := by
    intro k hk
    rw [hs']
    show ((putLoop s (_get_last_item_number s) B).2).getSlot k = _
    exact putLoop_getSlot_not_mem B s _ k hk
  have hlen' : s'.slots.length = s.slots.length + B.length := by
    rw [hs']
    show (putLoop s (_get_last_item_number s) B).2.slots.length = _
    exact hlen
  have hsplit : probes (_get_first_item_number s) (s.slots.length + B.length) =
      probes (_get_first_item_number s) s.slots.length ++
        probes (_get_last_item_number s) B.length := by
    rw [probes_append, hs.tail_eq]
  refine ⟨hcap, hfirst, hlast, hat, hframe, hlen', ?_⟩
  constructor
  · rw [hfirst]
    exact hs.head_lt
  · rw [hfirst, hlast, hlen', hs.tail_eq, ← iterNext_add]
  · omega
  · rw [hs']
    show (keys (putLoop s (_get_last_item_number s) B).2).Nodup
    exact hnodup
  · intro k
    rw [hfirst, hlen', hsplit, List.mem_append]
    by_cases hk : k ∈ probes (_get_last_item_number s) B.length
    · obtain ⟨j, hj, he⟩ := (mem_probes k _ _).mp hk
      constructor
      · intro _
        exact Or.inr hk
      · intro _
        rw [he, hat j hj]
        rfl
    · rw [hframe k hk, hs.mem_iff]
      constructor
      · exact Or.inl
      · rintro (hm | hm)
        · exact hm
        · exact absurd hm hk

theorem removeTxn_inv (s : Store) (n : Nat) (hs : Inv s) (hn : n ≤ ITEMS_MAX) :
    Inv (removeTxn s n) ∧
    _get_first_item_number (removeTxn s n) =
      iterNext (_get_first_item_number s) (min n s.slots.length) ∧
    _get_last_item_number (removeTxn s n) = _get_last_item_number s ∧
    (removeTxn s n).slots.length + min n s.slots.length = s.slots.length := by
  have hc := hs.count_le
  set h0 := _get_first_item_number s with hh0
  set c := s.slots.length with hcc
  set m := min n c with hmm
  have hmM : m ≤ ITEMS_MAX := by omega
  have hmc : m ≤ c := by omega
  have hsub : ∀ k ∈ probes h0 m, k ∈ keys s := by
    intro k hk
    obtain ⟨j, hj, he⟩ := (mem_probes k h0 m).mp hk
    rw [← getSlot_isSome_iff_mem_keys, hs.mem_iff, mem_probes]
    exact ⟨j, by omega, he⟩
  have hndL : (probes h0 m).Nodup := probes_nodup h0 m hmM
  have hlenP : (probes h0 m).length = m := length_probes h0 m
  have hlen := length_delProbes (probes h0 m) s hs.nodup_keys hndL hsub
  rw [hlenP] at hlen
  have hspec := removeTxn_spec s n hs hn
  have hsplit : probes h0 c = probes h0 m ++ probes (iterNext h0 m) (c - m) := by
    rw [← probes_append]
    congr 1
    omega
  have hdisj : (probes h0 m).Disjoint (probes (iterNext h0 m) (c - m)) := by
    have : (probes h0 c).Nodup := probes_nodup h0 c (by omega)
    rw [hsplit] at this
    exact List.disjoint_of_nodup_append this
  have hget : ∀ k, (removeTxn s n).getSlot k =
      if k ∈ probes h0 m then none else s.getSlot k := by
    intro k
    rw [hspec]
    show (delProbes s (probes h0 m)).getSlot k = _
    exact getSlot_delProbes _ s k
  have hfirst : _get_first_item_number (removeTxn s n) = iterNext h0 m := by
    rw [hspec]
    rfl
  have hlast : _get_last_item_number (removeTxn s n) = _get_last_item_number s := by
    rw [hspec]
    show (delProbes s (probes h0 m)).endv.getD 0 = s.endv.getD 0
    rw [endv_delProbes]
  have hlen' : (removeTxn s n).slots.length + m = c := by
    rw [hspec]
    exact hlen
  refine ⟨⟨?_, ?_, ?_, ?_, ?_⟩, hfirst, hlast, hlen'⟩
  · rw [hfirst]
    exact iterNext_lt h0 hs.head_lt m
  · rw [hfirst, hlast, hs.tail_eq, show (removeTxn s n).slots.length = c - m from by omega]
    rw [← iterNext_add]
    congr 1
    omega
  · omega
  · rw [hspec]
    show (keys (delProbes s (probes h0 m))).Nodup
    exact keys_delProbes_nodup _ s hs.nodup_keys
  · intro k
    rw [hget k, hfirst, show (removeTxn s n).slots.length = c - m from by omega]
    by_cases hk : k ∈ probes h0 m
    · rw [if_pos hk]
      constructor
      · intro hfalse
        simp at hfalse
      · intro hm2
        exact absurd hm2 (hdisj hk)
    · rw [if_neg hk, hs.mem_iff, ← hh0, ← hcc, hsplit, List.mem_append]
      constructor
      · rintro (hm | hm)
        · exact absurd hm hk
        · exact hm
      · intro hm
        exact Or.inr hm

theorem toCount_le_of_validate (a : PyArg) (hv : _validate_arg_items_count a = none) :
    1 ≤ a.toCount ∧ a.toCount ≤ ITEMS_MAX := by
  cases a with
  | int n =>
    obtain ⟨h1, h2⟩ := (validate_count_int n).mp hv
    show 1 ≤ n.toNat ∧ n.toNat ≤ ITEMS_MAX
    simp only [ITEMS_MAX] at *
    omega
  | bytes b => simp [_validate_arg_items_count] at hv
  | str s => simp [_validate_arg_items_count] at hv
  | list xs => simp [_validate_arg_items_count] at hv
  | tuple xs => simp [_validate_arg_items_count] at hv
  | none_ => simp [_validate_arg_items_count] at hv

theorem put_snd (f : Bool) (s : Store) (a : PyArg) :
    (put f s a).2 = s ∨ putTxn s a.toItems = PyResult.ok (put f s a).2 := by
  unfold put
  cases hv : validate_put_items a with
  | some e => simp [hv]
  | none =>
    cases f with
    | true => simp [hv]
    | false =>
      cases hp : putTxn s a.toItems with
      | ok s' => simp [hv, hp]
      | raised e => simp [hv, hp]

theorem get_snd (f : Bool) (s : Store) (a : PyArg) : (get f s a).2 = s := by
  unfold get
  cases hv : _validate_arg_items_count a with
  | some e => simp [hv]
  | none =>
    cases f with
    | true => simp [hv]
    | false => simp [hv]

theorem remove_snd (f : Bool) (s : Store) (a : PyArg) :
    (remove f s a).2 = s ∨
      (_validate_arg_items_count a = none ∧
        (remove f s a).2 = removeTxn s a.toCount) := by
  unfold remove
  cases hv : _validate_arg_items_count a with
  | some e => simp [hv]
  | none =>
    cases f with
    | true => simp [hv]
    | false => simp [hv]

theorem pop_snd (f : Bool) (s : Store) (a : PyArg) :
    (pop f s a).2 = s ∨
      (_validate_arg_items_count a = none ∧
        (pop f s a).2 = (popTxn s a.toCount).2) := by
  unfold pop
  cases hv : _validate_arg_items_count a with
  | some e => simp [hv]
  | none =>
    cases f with
    | true => simp [hv]
    | false => simp [hv]

theorem Inv_reachable (s : Store) (h : Reachable s) : Inv s := by
  induction h with
  | init => exact Inv_empty
  | put f s a hr ih =>
    rcases put_snd f s a with he | hp
    · rw [he]
      exact ih
    · exact (putTxn_ok_spec s a.toItems _ ih hp).2.2.2.2.2.2
  | get f s a hr ih =>
    rw [get_snd]
    exact ih
  | remove f s a hr ih =>
    rcases remove_snd f s a with he | ⟨hv, he⟩
    · rw [he]
      exact ih
    · rw [he]
      obtain ⟨h1, h2⟩ := toCount_le_of_validate a hv
      exact (removeTxn_inv s a.toCount ih h2).1
  | pop f s a hr ih =>
    rcases pop_snd f s a with he | ⟨hv, he⟩
    · rw [he]
      exact ih
    · rw [he, popTxn_snd_eq_removeTxn]
      obtain ⟨h1, h2⟩ := toCount_le_of_validate a hv
      exact (removeTxn_inv s a.toCount ih h2).1

theorem validate_put_items_of_valid (B : List Item)
    (h1 : 1 ≤ B.length) (h2 : B.length ≤ ITEMS_MAX)
    (h3 : ∀ b ∈ B, b.length ≤ ITEM_MAX) :
    validate_put_items (PyArg.list (B.map PyArg.bytes)) = none ∧
    (PyArg.list (B.map PyArg.bytes)).toItems = B := by
  constructor
  · show validate_items_list (B.map PyArg.bytes) = none
    apply validate_items_list_eq_none
    · intro e
      rw [List.map_eq_nil_iff] at e
      rw [e] at h1
      simp at h1
    · simpa using h2
    · intro x hx
      obtain ⟨b, hb, rfl⟩ := List.mem_map.mp hx
      rfl
    · intro x hx
      obtain ⟨b, hb, rfl⟩ := List.mem_map.mp hx
      show b.length ≤ ITEM_MAX
      exact h3 b hb
  · show (B.map PyArg.bytes).map PyArg.asBytes = B
    rw [List.map_map]
    have hid : PyArg.asBytes ∘ PyArg.bytes = id := by
      funext b
      rfl
    rw [hid, List.map_id]

theorem put_eq_of_ok (s : Store) (a : PyArg) (s' : Store)
    (hv : validate_put_items a = none) (hp : putTxn s a.toItems = PyResult.ok s') :
    put false s a = (PyResult.ok (), s') := by
  unfold put
  simp [hv, hp]

theorem put_eq_of_raised (s : Store) (a : PyArg) (e : QErr)
    (hv : validate_put_items a = none)
    (hp : putTxn s a.toItems = PyResult.raised e) :
    put false s a = (PyResult.raised e, s) := by
  unfold put
  simp [hv, hp]

theorem get_eq (s : Store) (a : PyArg) (hv : _validate_arg_items_count a = none) :
    get false s a = (PyResult.ok (some (getTxn s a.toCount)), s) := by
  unfold get
  simp [hv]

theorem remove_eq (s : Store) (a : PyArg) (hv : _validate_arg_items_count a = none) :
    remove false s a = (PyResult.ok (), removeTxn s a.toCount) := by
  unfold remove
  simp [hv]

theorem pop_eq (s : Store) (a : PyArg) (hv : _validate_arg_items_count a = none) :
    pop false s a = (PyResult.ok (some (popTxn s a.toCount).1), (popTxn s a.toCount).2) := by
  unfold pop
  simp [hv]

theorem live_eq (s : Store) : s.entries - s.specialKeysCount = s.slots.length := by
  show s.slots.length + s.specialKeysCount - s.specialKeysCount = s.slots.length
  omega

theorem map_getD_range (B : List Item) :
    (List.range B.length).map (fun j => B.getD j []) = B := by
  induction B with
  | nil => rfl
  | cons b bs ih =>
    have hcomp : ((fun j => (b :: bs).getD j []) ∘ Nat.succ) = fun j => bs.getD j [] := by
      funext j
      simp [List.getD_cons_succ]
    rw [show (b :: bs).length = bs.length + 1 from rfl, List.range_succ_eq_map,
      List.map_cons, List.map_map, hcomp, ih]
    simp [List.getD_cons_zero]

theorem removeLoop_of_empty (s : Store) (i n : Nat) (h : ∀ k, s.getSlot k = none) :
    removeLoop s i n = (i, s) := by
  cases n with
  | zero => rfl
  | succ n => simp [removeLoop, h i]

theorem getTxn_of_empty (s : Store) (n : Nat) (h : ∀ k, s.getSlot k = none) :
    getTxn s n = [] := by
  show getLoop s (_get_first_item_number s) n [] = []
  cases n with
  | zero => rfl
  | succ n => simp [getLoop, h]

theorem getLoop_length (n : Nat) (s : Store) (i : Nat) (acc : List Item) :
    (getLoop s i n acc).length ≤ acc.length + n := by
  induction n generalizing i acc with
  | zero => simp [getLoop]
  | succ n ih =>
    cases hg : s.getSlot i with
    | none =>
      simp only [getLoop, hg]
      omega
    | some v =>
      simp only [getLoop, hg]
      have := ih (_get_next_item_number i) (acc ++ [v])
      simp only [List.length_append, List.length_cons, List.length_nil] at this
      omega

theorem filterMap_eq_map_of_isSome (l : List Nat) (f : Nat → Option Item)
    (h : ∀ x ∈ l, (f x).isSome) :
    l.filterMap f = l.map (fun x => (f x).getD []) := by
  induction l with
  | nil => rfl
  | cons a l ih =>
    have ha := h a (List.mem_cons_self _ _)
    obtain ⟨v, hv⟩ := Option.isSome_iff_exists.mp ha
    simp [List.filterMap_cons, hv, ih (fun x hx => h x (List.mem_cons_of_mem _ hx))]

theorem probes_take (i n m : Nat) : (probes i m).take n = probes i (min n m) := by
  induction m generalizing i n with
  | zero => simp [probes]
  | succ m ih =>
    cases n with
    | zero => simp [probes]
    | succ n =>
      show (probes i (m + 1)).take (n + 1) = probes i (min (n + 1) (m + 1))
      rw [Nat.succ_min_succ]
      show (i :: probes (_get_next_item_number i) m).take (n + 1) = _
      rw [List.take_succ_cons, ih]
      rfl

theorem validate_put_items_of_malformed (a : PyArg) (h : MalformedPutItems a) :
    validate_put_items a = some QErr.argumentError := by
  cases a with
  | list xs => exact validate_items_list_eq_some xs h
  | tuple xs => exact validate_items_list_eq_some xs h
  | int n => rfl
  | bytes b => rfl
  | str s => rfl
  | none_ => rfl

theorem validate_count_of_malformed (a : PyArg) (h : MalformedCount a) :
    _validate_arg_items_count a = some QErr.argumentError := by
  cases a with
  | int n =>
    have h' : n ≤ 0 ∨ (ITEMS_MAX : Int) < n := h
    show (if n ≤ 0 then some QErr.argumentError
      else if (ITEMS_MAX : Int) < n then some QErr.argumentError else none) =
        some QErr.argumentError
    rcases h' with h1 | h1
    · rw [if_pos h1]
    · rw [if_neg (by omega), if_pos h1]
  | bytes b => rfl
  | str s => rfl
  | list xs => rfl
  | tuple xs => rfl
  | none_ => rfl

/-- Claim C1, counterexample: when the underlying store raises during the
transaction, `pop`, `get` and `remove` do not propagate any storage-failure
condition — the `except lmdb.Error` clauses of `_pop`/`_get`/`_remove` only
log, so at this concrete input `pop` and `get` return Python `None` and
`remove` returns normally, contradicting the claim that they surface the
failure instead of returning a normal None-like result. -/
theorem C1_counterexample :
    (pop true Store.empty (PyArg.int 1)).1 = PyResult.ok none ∧
    ((pop true Store.empty (PyArg.int 1)).1).isRaised = false ∧
    (get true Store.empty (PyArg.int 1)).1 = PyResult.ok none ∧
    ((get true Store.empty (PyArg.int 1)).1).isRaised = false ∧
    (remove true Store.empty (PyArg.int 1)).1 = PyResult.ok () ∧
    ((remove true Store.empty (PyArg.int 1)).1).isRaised = false := by
  decide

/-- Claim C1 (amended): on a storage failure inside the transaction, `put`
propagates it by raising `QueueError` with the store left unchanged, while
`get`, `remove` and `pop` catch and log the failure and return without
raising — `get` and `pop` return a `None`-like result — likewise leaving the
aborted transaction's store unchanged. -/
theorem C1_storage_failure :
    (∀ (s : Store) (a : PyArg), validate_put_items a = none →
      put true s a = (PyResult.raised QErr.queueError, s)) ∧
    (∀ (s : Store) (a : PyArg), _validate_arg_items_count a = none →
      get true s a = (PyResult.ok none, s) ∧
      remove true s a = (PyResult.ok (), s) ∧
      pop true s a = (PyResult.ok none, s)) := by
  constructor
  · intro s a hv
    unfold put
    simp [hv]
  · intro s a hv
    refine ⟨?_, ?_, ?_⟩
    · unfold get
      simp [hv]
    · unfold remove
      simp [hv]
    · unfold pop
      simp [hv]

/-- Claim C1, witness for the amended theorem at concrete inputs. -/
theorem C1_storage_failure_witness :
    put true Store.empty (PyArg.list [PyArg.bytes [7]]) =
      (PyResult.raised QErr.queueError, Store.empty) ∧
    get true Store.empty (PyArg.int 1) = (PyResult.ok none, Store.empty) ∧
    remove true Store.empty (PyArg.int 1) = (PyResult.ok (), Store.empty) ∧
    pop true Store.empty (PyArg.int 1) = (PyResult.ok none, Store.empty) := by
  have h1 := C1_storage_failure.1 Store.empty (PyArg.list [PyArg.bytes [7]]) (by decide)
  have h2 := C1_storage_failure.2 Store.empty (PyArg.int 1) (by decide)
  exact ⟨h1, h2.1, h2.2.1, h2.2.2⟩

/-- Claim C2: a `put` of a valid batch is all-or-nothing.  Either the call
returns normally and the committed state holds every item of the batch — the
values sit at the `len(items)` consecutive positions starting at the stored
tail, the tail has advanced by `len(items)` mod `ITEMS_MAX` (the CAPACITY)
and the item count has grown by `len(items)` — or capacity is not granted,
`TryLater` (CapacityExceeded) is raised and the committed state is exactly
the pre-state; no partially-admitted committed state occurs. -/
theorem C2_put_atomic (s : Store) (B : List Item) (hs : Inv s)
    (h1 : 1 ≤ B.length) (h2 : B.length ≤ ITEMS_MAX)
    (h3 : ∀ b ∈ B, b.length ≤ ITEM_MAX) :
    (∃ s', put false s (PyArg.list (B.map PyArg.bytes)) = (PyResult.ok (), s') ∧
      (∀ j, j < B.length →
        s'.getSlot (iterNext (_get_last_item_number s) j) = some (B.getD j [])) ∧
      _get_last_item_number s' = (_get_last_item_number s + B.length) % ITEMS_MAX ∧
      s'.slots.length = s.slots.length + B.length) ∨
    (put false s (PyArg.list (B.map PyArg.bytes)) =
      (PyResult.raised QErr.tryLater, s) ∧
      ITEMS_MAX < s.slots.length + B.length) := by
  obtain ⟨hv, hitems⟩ := validate_put_items_of_valid B h1 h2 h3
  have htail_lt : _get_last_item_number s < ITEMS_MAX := by
    rw [hs.tail_eq]
    exact iterNext_lt _ hs.head_lt _
  by_cases hcap : B.length + s.slots.length ≤ ITEMS_MAX
  · left
    have hp := putTxn_permitted s B hcap
    obtain ⟨hcap', hfirst, hlast, hat, hframe, hlen, hinv⟩ :=
      putTxn_ok_spec s B _ hs hp
    refine ⟨_, ?_, hat, ?_, hlen⟩
    · exact put_eq_of_ok s _ _ hv (by rw [hitems]; exact hp)
    · rw [hlast, iterNext_eq_mod _ htail_lt]
  · right
    have hp := putTxn_not_permitted s B hcap
    constructor
    · exact put_eq_of_raised s _ QErr.tryLater hv (by rw [hitems]; exact hp)
    · omega

/-- Claim C2, witness at a concrete input: a one-item batch on a fresh
store. -/
theorem C2_put_atomic_witness :
    (∃ s', put false Store.empty (PyArg.list (([[42]] : List Item).map PyArg.bytes)) =
        (PyResult.ok (), s') ∧
      (∀ j, j < ([[42]] : List Item).length →
        s'.getSlot (iterNext (_get_last_item_number Store.empty) j) =
          some (([[42]] : List Item).getD j [])) ∧
      _get_last_item_number s' =
        (_get_last_item_number Store.empty + ([[42]] : List Item).length) % ITEMS_MAX ∧
      s'.slots.length = Store.empty.slots.length + ([[42]] : List Item).length) ∨
    (put false Store.empty (PyArg.list (([[42]] : List Item).map PyArg.bytes)) =
      (PyResult.raised QErr.tryLater, Store.empty) ∧
      ITEMS_MAX < Store.empty.slots.length + ([[42]] : List Item).length) :=
  C2_put_atomic Store.empty [[42]] Inv_empty (by decide) (by decide) (by decide)

/-- Claim C3: starting from an empty consistent queue state, putting a valid
batch `B` and then popping `len(B)` items returns exactly `B`, in the
original order. -/
theorem C3_put_pop_roundtrip (s : Store) (B : List Item) (hs : Inv s)
    (hempty : s.slots.length = 0)
    (h1 : 1 ≤ B.length) (h2 : B.length ≤ ITEMS_MAX)
    (h3 : ∀ b ∈ B, b.length ≤ ITEM_MAX) :
    ∃ s', put false s (PyArg.list (B.map PyArg.bytes)) = (PyResult.ok (), s') ∧
      (pop false s' (PyArg.int (B.length : Int))).1 = PyResult.ok (some B) := by
  obtain ⟨hv, hitems⟩ := validate_put_items_of_valid B h1 h2 h3
  have hcap : B.length + s.slots.length ≤ ITEMS_MAX := by omega
  have hp := putTxn_permitted s B hcap
  set s' := _put_last_item_number (putLoop s (_get_last_item_number s) B).1
      (putLoop s (_get_last_item_number s) B).2 with hs'def
  obtain ⟨hcap', hfirst, hlast, hat, hframe, hlen, hinv⟩ :=
    putTxn_ok_spec s B s' hs hp
  refine ⟨s', ?_, ?_⟩
  · exact put_eq_of_ok s _ s' hv (by rw [hitems]; exact hp)
  · have hlast0 : _get_last_item_number s = _get_first_item_number s := by
      rw [hs.tail_eq, hempty]
      rfl
    have hvc : _validate_arg_items_count (PyArg.int (B.length : Int)) = none := by
      rw [validate_count_int]
      simp only [ITEMS_MAX] at *
      omega
    have htc : (PyArg.int (B.length : Int)).toCount = B.length := by
      show (B.length : Int).toNat = B.length
      omega
    rw [pop_eq s' (PyArg.int (B.length : Int)) hvc, htc]
    have hgoal : (popTxn s' B.length).1 = B := by
      rw [popTxn_fst_eq_getTxn s' B.length h2, getTxn_spec s' B.length hinv h2, hfirst]
      have e0 : min B.length s'.slots.length = B.length := by omega
      rw [e0, probes_eq_map_range, List.map_map]
      have hmap : ∀ j ∈ List.range B.length,
          ((fun k => (s'.getSlot k).getD []) ∘ iterNext (_get_first_item_number s)) j =
            B.getD j [] := by
        intro j hj
        rw [List.mem_range] at hj
        show (s'.getSlot (iterNext (_get_first_item_number s) j)).getD [] = B.getD j []
        rw [← hlast0, hat j hj]
        rfl
      rw [List.map_congr_left hmap, map_getD_range]
    rw [hgoal]

/-- Claim C3, witness at a concrete input: a two-item batch on the fresh
store. -/
theorem C3_put_pop_roundtrip_witness :
    ∃ s', put false Store.empty
        (PyArg.list (([[3], [4, 5]] : List Item).map PyArg.bytes)) =
        (PyResult.ok (), s') ∧
      (pop false s' (PyArg.int (([[3], [4, 5]] : List Item).length : Int))).1 =
        PyResult.ok (some [[3], [4, 5]]) :=
  C3_put_pop_roundtrip Store.empty [[3], [4, 5]] Inv_empty rfl (by decide) (by decide)
    (by decide)

/-- Claim C4: `_permit_put` admits a batch exactly when `live + n ≤ ITEMS_MAX`
where `live` is the store's entry count minus the number of reserved
head/tail keys present; consequently filling the queue up to exactly
`ITEMS_MAX` items succeeds, a successful put grows the live count by the
batch size, and once the live count has reached `ITEMS_MAX` any further put
of at least one item raises `TryLater` (CapacityExceeded). -/
theorem C4_capacity_guard :
    (∀ (s : Store) (B : List Item),
      _permit_put s B = true ↔
        B.length + (s.entries - s.specialKeysCount) ≤ ITEMS_MAX) ∧
    (∀ (s : Store) (B : List Item),
      B.length + (s.entries - s.specialKeysCount) ≤ ITEMS_MAX →
        ∃ s', putTxn s B = PyResult.ok s') ∧
    (∀ (s : Store) (B : List Item) (s' : Store), Inv s →
      putTxn s B = PyResult.ok s' →
        s'.entries - s'.specialKeysCount =
          (s.entries - s.specialKeysCount) + B.length) ∧
    (∀ (s : Store) (B : List Item), 1 ≤ B.length →
      ITEMS_MAX ≤ s.entries - s.specialKeysCount →
        putTxn s B = PyResult.raised QErr.tryLater) := by
  refine ⟨?_, ?_, ?_, ?_⟩
  · intro s B
    rw [live_eq]
    exact permit_put_iff s B
  · intro s B h
    rw [live_eq] at h
    exact ⟨_, putTxn_permitted s B h⟩
  · intro s B s' hs hp
    have hlen := (putTxn_ok_spec s B s' hs hp).2.2.2.2.2.1
    rw [live_eq, live_eq, hlen]
  · intro s B h1 h2
    rw [live_eq] at h2
    exact putTxn_not_permitted s B (by omega)

/-- Claim C4, witness at concrete inputs: admission within capacity on the
fresh store, the live-count growth of that put, and the denial on a store
already holding `ITEMS_MAX` item entries. -/
theorem C4_capacity_guard_witness :
    (∃ s', putTxn Store.empty [[1]] = PyResult.ok s') ∧
    ((⟨none, some 1, [(0, [1])]⟩ : Store).entries -
        (⟨none, some 1, [(0, [1])]⟩ : Store).specialKeysCount =
      (Store.empty.entries - Store.empty.specialKeysCount) +
        ([[1]] : List Item).length) ∧
    putTxn ⟨none, none, List.replicate 1000 (0, [])⟩ [[2]] =
      PyResult.raised QErr.tryLater := by
  refine ⟨C4_capacity_guard.2.1 Store.empty [[1]] (by decide),
    C4_capacity_guard.2.2.1 Store.empty [[1]] ⟨none, some 1, [(0, [1])]⟩ Inv_empty
      (by decide),
    C4_capacity_guard.2.2.2 ⟨none, none, List.replicate 1000 (0, [])⟩ [[2]]
      (by decide) ?_⟩
  show ITEMS_MAX ≤
    (⟨none, none, List.replicate 1000 (0, [])⟩ : Store).entries -
      (⟨none, none, List.replicate 1000 (0, [])⟩ : Store).specialKeysCount
  rw [live_eq]
  show ITEMS_MAX ≤ (List.replicate 1000 ((0 : Nat), ([] : Item))).length
  rw [List.length_replicate]
  decide

/-- Claim C5: on an empty queue (no item key present) a validated `remove`
returns normally, removes nothing and changes no observable queue state — the
item entries, the head value and the `end` key are untouched (the post state
is exactly the pre state with the head key re-written with its current
value) — and a subsequent `get(1)` returns the empty sequence.  In general a
validated `remove` never raises, even when fewer items than requested exist,
and removes at most the number of items actually present. -/
theorem C5_remove_empty_noop :
    (∀ (s : Store) (n : Int), (∀ k, s.getSlot k = none) →
      _validate_arg_items_count (PyArg.int n) = none →
      remove false s (PyArg.int n) =
        (PyResult.ok (), _put_first_item_number (_get_first_item_number s) s) ∧
      (remove false s (PyArg.int n)).2.slots = s.slots ∧
      _get_first_item_number (remove false s (PyArg.int n)).2 =
        _get_first_item_number s ∧
      (remove false s (PyArg.int n)).2.endv = s.endv ∧
      (get false (remove false s (PyArg.int n)).2 (PyArg.int 1)).1 =
        PyResult.ok (some [])) ∧
    (∀ (s : Store) (a : PyArg), _validate_arg_items_count a = none →
      (remove false s a).1 = PyResult.ok ()) ∧
    (∀ (s : Store) (a : PyArg), Inv s → _validate_arg_items_count a = none →
      s.slots.length - (remove false s a).2.slots.length ≤
        min a.toCount s.slots.length) := by
  refine ⟨?_, ?_, ?_⟩
  · intro s n hempty hv
    have hrm : removeTxn s (PyArg.int n).toCount =
        _put_first_item_number (_get_first_item_number s) s := by
      show _put_first_item_number
          (removeLoop s (_get_first_item_number s) (PyArg.int n).toCount).1
          (removeLoop s (_get_first_item_number s) (PyArg.int n).toCount).2 = _
      rw [removeLoop_of_empty s _ _ hempty]
    have he := remove_eq s (PyArg.int n) hv
    rw [he, hrm]
    refine ⟨rfl, rfl, rfl, rfl, ?_⟩
    have hv1 : _validate_arg_items_count (PyArg.int 1) = none := by decide
    rw [get_eq _ (PyArg.int 1) hv1]
    have hg : getTxn (_put_first_item_number (_get_first_item_number s) s) 1 = [] := by
      apply getTxn_of_empty
      intro k
      exact hempty k
    rw [show (PyArg.int 1).toCount = 1 from rfl, hg]
  · intro s a hv
    rw [remove_eq s a hv]
  · intro s a hs hv
    obtain ⟨h1, h2⟩ := toCount_le_of_validate a hv
    rw [remove_eq s a hv]
    have hlen := (removeTxn_inv s a.toCount hs h2).2.2.2
    show s.slots.length - (removeTxn s a.toCount).slots.length ≤
      min a.toCount s.slots.length
    omega

/-- Claim C5, witness at concrete inputs: removing from the fresh empty
store. -/
theorem C5_remove_empty_noop_witness :
    (remove false Store.empty (PyArg.int 3) =
      (PyResult.ok (), _put_first_item_number (_get_first_item_number Store.empty)
        Store.empty) ∧
      (remove false Store.empty (PyArg.int 3)).2.slots = Store.empty.slots ∧
      _get_first_item_number (remove false Store.empty (PyArg.int 3)).2 =
        _get_first_item_number Store.empty ∧
      (remove false Store.empty (PyArg.int 3)).2.endv = Store.empty.endv ∧
      (get false (remove false Store.empty (PyArg.int 3)).2 (PyArg.int 1)).1 =
        PyResult.ok (some [])) ∧
    (remove false Store.empty (PyArg.int 3)).1 = PyResult.ok () ∧
    Store.empty.slots.length -
        (remove false Store.empty (PyArg.int 3)).2.slots.length ≤
      min (PyArg.int 3).toCount Store.empty.slots.length :=
  ⟨C5_remove_empty_noop.1 Store.empty 3 (fun k => rfl) (by decide),
   C5_remove_empty_noop.2.1 Store.empty (PyArg.int 3) (by decide),
   C5_remove_empty_noop.2.2 Store.empty (PyArg.int 3) Inv_empty (by decide)⟩

/-- Claim C6: for every store state and valid count, `pop` is the atomic
composition of `get` followed by `remove`: it returns exactly the items
`get` would return on that state, and its post-state is exactly the
post-state of `remove` applied to that state. -/
theorem C6_pop_refines_get_remove (s : Store) (n : Nat)
    (h1 : 1 ≤ n) (h2 : n ≤ ITEMS_MAX) :
    (popTxn s n).1 = getTxn s n ∧ (popTxn s n).2 = removeTxn s n :=
  ⟨popTxn_fst_eq_getTxn s n h2, popTxn_snd_eq_removeTxn s n⟩

/-- Claim C6, witness at a concrete input: a two-item store, count 5. -/
theorem C6_pop_refines_get_remove_witness :
    (popTxn ⟨none, some 2, [(1, [2]), (0, [1])]⟩ 5).1 =
      getTxn ⟨none, some 2, [(1, [2]), (0, [1])]⟩ 5 ∧
    (popTxn ⟨none, some 2, [(1, [2]), (0, [1])]⟩ 5).2 =
      removeTxn ⟨none, some 2, [(1, [2]), (0, [1])]⟩ 5 :=
  C6_pop_refines_get_remove ⟨none, some 2, [(1, [2]), (0, [1])]⟩ 5 (by decide)
    (by decide)

/-- Claim C7: in every committed state reachable from a fresh queue by public
calls, an item key is present exactly when it lies on the walk of `count`
consecutive positions from `head` advancing +1 mod CAPACITY, where `count` is
the number of item entries physically present, and both stored pointers lie
in `[0, ITEMS_MAX)`. -/
theorem C7_reachable_invariant (s : Store) (h : Reachable s) :
    (∀ k, (s.getSlot k).isSome ↔
      k ∈ probes (_get_first_item_number s) s.slots.length) ∧
    _get_first_item_number s < ITEMS_MAX ∧
    _get_last_item_number s < ITEMS_MAX := by
  have hs := Inv_reachable s h
  refine ⟨hs.mem_iff, hs.head_lt, ?_⟩
  rw [hs.tail_eq]
  exact iterNext_lt _ hs.head_lt _

/-- Claim C7, witness: the invariant on the state reached by one put. -/
theorem C7_reachable_invariant_witness :
    _get_first_item_number (put false Store.empty (PyArg.list [PyArg.bytes [1]])).2 <
      ITEMS_MAX ∧
    _get_last_item_number (put false Store.empty (PyArg.list [PyArg.bytes [1]])).2 <
      ITEMS_MAX ∧
    (((put false Store.empty (PyArg.list [PyArg.bytes [1]])).2.getSlot 0).isSome ↔
      0 ∈ probes
        (_get_first_item_number
          (put false Store.empty (PyArg.list [PyArg.bytes [1]])).2)
        (put false Store.empty (PyArg.list [PyArg.bytes [1]])).2.slots.length) := by
  have h := C7_reachable_invariant _
    (Reachable.put false Store.empty (PyArg.list [PyArg.bytes [1]]) Reachable.init)
  exact ⟨h.2.1, h.2.2, h.1 0⟩

/-- Claim C8: a validated `get` never mutates the store, a second call with no
intervening write returns the identical result, the result never exceeds the
requested count, and on a consistent state it is exactly the `min(n, count)`
oldest items in FIFO order (a prefix of the queue content). -/
theorem C8_get_nondestructive (s : Store) (a : PyArg)
    (hv : _validate_arg_items_count a = none) :
    (get false s a).2 = s ∧
    (get false ((get false s a).2) a).1 = (get false s a).1 ∧
    (getTxn s a.toCount).length ≤ a.toCount ∧
    (Inv s →
      getTxn s a.toCount = (queueItems s).take a.toCount ∧
      (getTxn s a.toCount).length = min a.toCount s.slots.length) := by
  obtain ⟨hc1, hc2⟩ := toCount_le_of_validate a hv
  refine ⟨get_snd false s a, by rw [get_snd false s a], ?_, ?_⟩
  · have hlen := getLoop_length a.toCount s (_get_first_item_number s) []
    simpa [getTxn] using hlen
  · intro hs
    have hspec := getTxn_spec s a.toCount hs hc2
    constructor
    · rw [hspec]
      unfold queueItems
      rw [filterMap_eq_map_of_isSome _ _ (fun x hx => (hs.mem_iff x).mpr hx),
        ← List.map_take, probes_take]
    · rw [hspec, List.length_map, length_probes]

/-- Claim C8, witness at concrete inputs on the fresh store. -/
theorem C8_get_nondestructive_witness :
    (get false Store.empty (PyArg.int 2)).2 = Store.empty ∧
    getTxn Store.empty (PyArg.int 2).toCount =
      (queueItems Store.empty).take (PyArg.int 2).toCount := by
  have h := C8_get_nondestructive Store.empty (PyArg.int 2) (by decide)
  exact ⟨h.1, (h.2.2.2 Inv_empty).1⟩

/-- Claim C9: any malformed argument — a non-list/tuple or empty `items`
batch, a batch longer than `ITEMS_MAX`, a non-bytes element, an item larger
than `ITEM_MAX`, or a count that is not an integer, non-positive or exceeding
`ITEMS_MAX` — makes the operation raise `ArgumentError` before any
transaction is opened (the result is identical whether or not the store would
fail) and leaves the store unchanged. -/
theorem C9_argument_validation (s : Store) (a : PyArg) (f : Bool) :
    (MalformedPutItems a → put f s a = (PyResult.raised QErr.argumentError, s)) ∧
    (MalformedCount a →
      get f s a = (PyResult.raised QErr.argumentError, s) ∧
      remove f s a = (PyResult.raised QErr.argumentError, s) ∧
      pop f s a = (PyResult.raised QErr.argumentError, s)) := by
  constructor
  · intro hm
    unfold put
    rw [validate_put_items_of_malformed a hm]
  · intro hm
    have hv := validate_count_of_malformed a hm
    refine ⟨?_, ?_, ?_⟩
    · unfold get
      rw [hv]
    · unfold remove
      rw [hv]
    · unfold pop
      rw [hv]

/-- Claim C9, witness at a concrete malformed input (the integer 0, which is
not a valid `items` argument and a non-positive count), on a failing store. -/
theorem C9_argument_validation_witness :
    put true Store.empty (PyArg.int 0) =
      (PyResult.raised QErr.argumentError, Store.empty) ∧
    get true Store.empty (PyArg.int 0) =
      (PyResult.raised QErr.argumentError, Store.empty) ∧
    remove true Store.empty (PyArg.int 0) =
      (PyResult.raised QErr.argumentError, Store.empty) ∧
    pop true Store.empty (PyArg.int 0) =
      (PyResult.raised QErr.argumentError, Store.empty) := by
  have h := C9_argument_validation Store.empty (PyArg.int 0) true
  have hm : MalformedCount (PyArg.int 0) := Or.inl (by decide)
  exact ⟨h.1 trivial, (h.2 hm).1, (h.2 hm).2.1, (h.2 hm).2.2⟩

/-- Claim C10: a zero-length bytes item passes `put`'s validation (the item
size check only enforces an upper bound) and round-trips intact: on the fresh
store, `put([b''])` succeeds and `pop(1)` returns `[b'']`. -/
theorem C10_empty_item_roundtrip :
    validate_put_items (PyArg.list [PyArg.bytes []]) = none ∧
    (put false Store.empty (PyArg.list [PyArg.bytes []])).1 = PyResult.ok () ∧
    (pop false ((put false Store.empty (PyArg.list [PyArg.bytes []])).2)
      (PyArg.int 1)).1 = PyResult.ok (some [[]]) := by
  decide

end Nque
